import Mathlib

/-!
Verification development for the lightweight LoRa PHY library.

The definitions below are a shallow embedding of the repository's C++ sources.
Pure integer routines (the Hamming(8,4) codec, the diagonal interleaver, the
byte packers, the CRC-32 MIC, the LoRaWAN frame serializer) are embedded as
computable Lean functions on `Nat` and `List Nat`.  The floating-point signal
path (`estimate_offsets`, `compensate_offsets`, `demodulate`, `lora_modulate`)
is embedded over the real and complex numbers, with the FFT peak detector —
whose implementation is not part of src/ — abstracted as an oracle returning a
bin index below `N = 2 ^ sf`, a fractional index and a bin phase, exactly the
data the source reads out of it.

Routines that the repository only declares or calls (LoRaCodes.hpp,
ChirpGenerator.hpp, LoRaDetector.hpp, kissfft.hh, `lora_encode`/`lora_decode`
and lorawan.hpp are absent from src/) are modelled from the specification; each
such definition carries a doc comment starting with `Modelled from the spec:`.
-/

namespace LoRaPhy

/-! ## Hamming(8,4) codec -/

/-- Modelled from the spec: `encodeHamming84sx` (LoRaCodes.hpp is absent from
src/).  Section 4.3: a fixed 16-entry mapping from a nibble to an 8-bit
codeword whose low 4 bits carry the data and whose high 4 bits are parity,
with minimum distance 4. -/
def encodeHamming84sx (x : Nat) : Nat :=
  let d0 := (x >>> 0) &&& 1
  let d1 := (x >>> 1) &&& 1
  let d2 := (x >>> 2) &&& 1
  let d3 := (x >>> 3) &&& 1
  (x &&& 0xf) |||
    ((d0 ^^^ d1 ^^^ d2) <<< 4) |||
    ((d1 ^^^ d2 ^^^ d3) <<< 5) |||
    ((d0 ^^^ d1 ^^^ d3) <<< 6) |||
    ((d0 ^^^ d2 ^^^ d3) <<< 7)

/-- Result of a Hamming(8,4) decode: the recovered nibble, the error flag and
the uncorrectable (`bad`) flag, the two out-parameters of the C++ decoder. -/
structure HammingDecode where
  nibble : Nat
  err : Bool
  bad : Bool
deriving DecidableEq

/-- Modelled from the spec: `decodeHamming84sx` (LoRaCodes.hpp is absent from
src/).  Section 4.3: recompute the four parity bits of the received word, form
the syndrome; syndrome 0 is a clean word, the four syndromes of a single data
bit error correct that bit and report `err`, a single parity bit error reports
`err` with the data untouched, anything else is uncorrectable: `err` and `bad`
are set and the returned nibble is the data bits as received. -/
def decodeHamming84sx (b : Nat) : HammingDecode :=
  let b0 := (b >>> 0) &&& 1
  let b1 := (b >>> 1) &&& 1
  let b2 := (b >>> 2) &&& 1
  let b3 := (b >>> 3) &&& 1
  let b4 := (b >>> 4) &&& 1
  let b5 := (b >>> 5) &&& 1
  let b6 := (b >>> 6) &&& 1
  let b7 := (b >>> 7) &&& 1
  let s0 := b0 ^^^ b1 ^^^ b2 ^^^ b4
  let s1 := b1 ^^^ b2 ^^^ b3 ^^^ b5
  let s2 := b0 ^^^ b1 ^^^ b3 ^^^ b6
  let s3 := b0 ^^^ b2 ^^^ b3 ^^^ b7
  let synd := s0 ||| (s1 <<< 1) ||| (s2 <<< 2) ||| (s3 <<< 3)
  if synd = 0x0 then ⟨b &&& 0xf, false, false⟩
  else if synd = 0xD then ⟨(b ^^^ 1) &&& 0xf, true, false⟩
  else if synd = 0x7 then ⟨(b ^^^ 2) &&& 0xf, true, false⟩
  else if synd = 0xB then ⟨(b ^^^ 4) &&& 0xf, true, false⟩
  else if synd = 0xE then ⟨(b ^^^ 8) &&& 0xf, true, false⟩
  else if synd = 0x1 ∨ synd = 0x2 ∨ synd = 0x4 ∨ synd = 0x8 then
    ⟨b &&& 0xf, true, false⟩
  else ⟨b &&& 0xf, true, true⟩

/-! ## Diagonal interleaver -/

/-- Numeric value of a list of bits, least significant bit first. -/
def natOfBits : List Bool → Nat
  | [] => 0
  | b :: rest => (if b then 1 else 0) + 2 * natOfBits rest

/-- Modelled from the spec: one block of `diagonalInterleaveSx`
(LoRaCodes.hpp is absent from src/).  Section 4.4: the block takes `sf`
codewords of width `4 + rdd` bits and produces `4 + rdd` symbols of `sf` bits;
the bit at input row `r`, column `c` lands in output symbol `c` at bit
position `(r - c) mod sf`, so bit `q` of symbol `c` is bit `c` of codeword
`(q + c) mod sf`. -/
def interleaveBlock (sf rdd : Nat) (block : List Nat) : List Nat :=
  (List.range (4 + rdd)).map fun c =>
    natOfBits ((List.range sf).map fun q =>
      (block.getD ((q + c) % sf) 0).testBit c)

/-- Modelled from the spec: one block of `diagonalDeterleaveSx`
(LoRaCodes.hpp is absent from src/).  Section 4.4, inverse permutation: bit
`c` of codeword `r` is read from symbol `c` at bit position `(r - c) mod sf`,
written here with natural-number arithmetic as `(r + sf - c % sf) % sf`. -/
def deinterleaveBlock (sf rdd : Nat) (syms : List Nat) : List Nat :=
  (List.range sf).map fun r =>
    natOfBits ((List.range (4 + rdd)).map fun c =>
      (syms.getD c 0).testBit ((r + sf - c % sf) % sf))

/-- Interleave `k` consecutive blocks of `sf` codewords. -/
def interleaveGo (sf rdd : Nat) : Nat → List Nat → List Nat
  | 0, _ => []
  | k + 1, cws =>
      interleaveBlock sf rdd (cws.take sf) ++
        interleaveGo sf rdd k (cws.drop sf)

/-- Deinterleave `k` consecutive blocks of `4 + rdd` symbols. -/
def deinterleaveGo (sf rdd : Nat) : Nat → List Nat → List Nat
  | 0, _ => []
  | k + 1, syms =>
      deinterleaveBlock sf rdd (syms.take (4 + rdd)) ++
        deinterleaveGo sf rdd k (syms.drop (4 + rdd))

/-- Modelled from the spec: `diagonalInterleaveSx` (LoRaCodes.hpp is absent
from src/).  Processes `codeword_count / sf` blocks, as the callers in
src/runners do. -/
def diagonalInterleaveSx (cws : List Nat) (sf rdd : Nat) : List Nat :=
  interleaveGo sf rdd (cws.length / sf) cws

/-- Modelled from the spec: `diagonalDeterleaveSx` (LoRaCodes.hpp is absent
from src/).  Processes `symbol_count / (4 + rdd)` blocks. -/
def diagonalDeterleaveSx (syms : List Nat) (sf rdd : Nat) : List Nat :=
  deinterleaveGo sf rdd (syms.length / (4 + rdd)) syms

/-! ## Byte level codec -/

/-- Modelled from the spec: `lora_encode` (its implementation is absent from
src/; phy.hpp declares it as a simple Hamming(8,4) based encoder where each
input byte becomes two symbols, high nibble first — spec sections 4.9 and 8,
scenario E1: 4 bytes encode to 8 symbols).  The `sf` argument of the C++
signature does not change the produced symbols. -/
def lora_encode (payload : List Nat) (sf : Nat) : List Nat :=
  payload.flatMap fun b => [encodeHamming84sx (b / 16), encodeHamming84sx (b % 16)]

/-- Modelled from the spec: `lora_decode` (its implementation is absent from
src/; the inverse of `lora_encode`: each pair of symbols is Hamming decoded
into the high and low nibble of one output byte). -/
def lora_decode : List Nat → List Nat
  | s0 :: s1 :: rest =>
      ((decodeHamming84sx s0).nibble * 16 + (decodeHamming84sx s1).nibble) ::
        lora_decode rest
  | _ => []

/-! ## Workspace controller: parameters, metrics, error model -/

/-- The failure kinds of the workspace operations in phy.cpp.  Each
constructor corresponds to one kind of failure return site: null arguments
(invalid), a sample count that is not a whole number of symbols (shape), or an
output buffer that is too small (capacity). -/
inductive PhyErr
  | invalid
  | shape
  | capacity
deriving DecidableEq

/-- The literal integer constant that phy.cpp returns at each failure return
site: every `return -1;` in init, encode, modulate, demodulate and decode,
regardless of the failure kind. -/
def phyErrCode : PhyErr → Int
  | .invalid => -1
  | .shape => -1
  | .capacity => -1

/-- Configuration parameters, phy.hpp `lora_params`. -/
structure lora_params where
  sf : Nat
  bw : Nat
  cr : Nat
  osr : Nat
deriving DecidableEq

/-- Metrics collected during demodulation and decoding, phy.hpp
`lora_metrics`. -/
structure Metrics where
  crc_ok : Bool
  cfo : ℝ
  time_offset : ℝ

/-- The zero-initialised metrics produced by `ws->metrics = {}`. -/
noncomputable def zeroMetrics : Metrics :=
  { crc_ok := false, cfo := 0, time_offset := 0 }

/-- Observable result of `init`: the returned code, the transform sizes of the
two FFT plans it prepared, and the metrics slot it cleared. -/
structure InitResult where
  ret : Int
  plan_fwd_nfft : Nat
  plan_inv_nfft : Nat
  metrics : Metrics

/-- Embeds `init` (phy.cpp lines 22-29): with non-null `ws` and `cfg` it
initialises the forward and inverse FFT plans for `N = 2 ^ sf`, clears the
metrics and returns 0.  The C code performs no validation of sf, bw, cr or
osr. -/
noncomputable def init (cfg : lora_params) : InitResult :=
  { ret := 0
    plan_fwd_nfft := 2 ^ cfg.sf
    plan_inv_nfft := 2 ^ cfg.sf
    metrics := zeroMetrics }

/-- Embeds `encode` (phy.cpp lines 35-43): run `lora_encode`, then fail with
the capacity failure when more symbols were produced than `symbol_cap`
allows. -/
def encode (payload : List Nat) (sf : Nat) (symbol_cap : Nat) :
    Except PhyErr (List Nat) :=
  let produced := lora_encode payload sf
  if symbol_cap < produced.length then .error .capacity else .ok produced

/-! ## Real and complex signal path -/

/-- Result of the two phase unwrapping while loops of phy.cpp (lines 81-82):
subtract 2π while the difference exceeds π, then add 2π while it is below
-π. -/
noncomputable def unwrap (d : ℝ) : ℝ :=
  if Real.pi < d then
    d - 2 * Real.pi * (⌈(d - Real.pi) / (2 * Real.pi)⌉ : ℝ)
  else if d < -Real.pi then
    d + 2 * Real.pi * (⌈(-Real.pi - d) / (2 * Real.pi)⌉ : ℝ)
  else d

/-- C++ `std::round`: round half away from zero. -/
noncomputable def roundAway (x : ℝ) : ℤ :=
  if 0 ≤ x then ⌊x + 1 / 2⌋ else -⌊-x + 1 / 2⌋

/-- C++ `std::floor(x + 0.5f)` as written in estimate_offsets, as a real. -/
noncomputable def floorHalf (x : ℝ) : ℝ := (⌊x + 1 / 2⌋ : ℝ)

/-- Modelled from the spec: `genChirp` (ChirpGenerator.hpp is absent from
src/).  Section 4.2: writes `step = N * osr` samples starting at the caller's
running phase; the instantaneous frequency sweeps linearly from `freq` with
slope `2π · bw_scale` over the symbol (negated for a downchirp); returns the
advanced phase accumulator. -/
noncomputable def genChirp (N osr step : Nat) (freq : ℝ) (down : Bool)
    (amplitude phase bwScale : ℝ) : List ℂ × ℝ :=
  let slope : ℝ :=
    (if down then -(2 * Real.pi * bwScale) else 2 * Real.pi * bwScale) / (step : ℝ)
  ( (List.range step).map fun (i : Nat) =>
      (amplitude : ℂ) *
        Complex.exp (Complex.I *
          ((phase + freq * (i : ℝ) + slope * (i : ℝ) ^ 2 / 2 : ℝ) : ℂ)),
    phase + freq * (step : ℝ) + slope * (step : ℝ) ^ 2 / 2 )

/-- Embeds `lora_modulate` (LoRaMod.cpp lines 7-23): for each symbol `k`,
generate one upchirp of `step = N * osr` samples at starting frequency
`2π · k · bw_scale / (N · osr)`, threading the phase accumulator from symbol
to symbol. -/
noncomputable def lora_modulate (symbols : List Nat) (sf osr : Nat)
    (bwScale amplitude : ℝ) : List ℂ :=
  let N := 2 ^ sf
  let step := N * osr
  (symbols.foldl
    (fun (acc : List ℂ × ℝ) (k : Nat) =>
      let freq := 2 * Real.pi * (k : ℝ) * bwScale / ((N : ℝ) * (osr : ℝ))
      let c := genChirp N osr step freq false amplitude acc.2 bwScale
      (acc.1 ++ c.1, c.2))
    ([], 0)).1

/-- The detector observation of symbol window `s`: the loop body of
estimate_offsets reads the peak index, the fractional index and the peak bin
phase out of the detector for the `N`-sample window starting at `s · N`. -/
noncomputable def estObsF (sf : Nat) (detect : List ℂ → Fin (2 ^ sf) × ℝ × ℝ)
    (samples : List ℂ) (s : Nat) : ℝ × ℝ × ℝ :=
  let r := detect ((samples.drop (s * 2 ^ sf)).take (2 ^ sf))
  ((r.1.val : ℝ), r.2.1, r.2.2)

/-- One iteration of the estimation loop of phy.cpp (lines 71-87): running
state is (sum_index, phase_diff, prev_phase, have_prev). -/
noncomputable def estStep (sf : Nat) (detect : List ℂ → Fin (2 ^ sf) × ℝ × ℝ)
    (samples : List ℂ) (a : ℝ × ℝ × ℝ × Bool) (s : Nat) : ℝ × ℝ × ℝ × Bool :=
  let o := estObsF sf detect samples s
  ( a.1 + o.1 + o.2.1,
    if a.2.2.2 then a.2.1 + unwrap (o.2.2 - a.2.2.1) else a.2.1,
    o.2.2, true )

/-- Embeds `estimate_offsets` (phy.cpp lines 55-98).  The FFT peak detector
(LoRaDetector.hpp is absent from src/) is abstracted as the oracle `detect`,
returning for a symbol window the peak bin index in `[0, N)`, the fractional
index and the phase of the peak bin — exactly the values the C code reads from
it.  The loop runs over every whole symbol contained in `samples`, summing
`idx + findex` and the unwrapped phase differences of consecutive peak bins;
the metrics are then formed from the mean index. -/
noncomputable def estimate_offsets (sf : Nat)
    (detect : List ℂ → Fin (2 ^ sf) × ℝ × ℝ)
    (m : Metrics) (samples : List ℂ) : Metrics :=
  let N := 2 ^ sf
  let symbols := samples.length / N
  if symbols = 0 then m else
  let st := (List.range symbols).foldl (estStep sf detect samples) (0, 0, 0, false)
  let avg := st.1 / (symbols : ℝ)
  let cfoCoarse := avg / (N : ℝ)
  let cfoFine : ℝ :=
    if 1 < symbols then (st.2.1 / ((symbols : ℝ) - 1)) / (2 * Real.pi * (N : ℝ)) else 0
  let frac := avg - floorHalf avg
  { m with cfo := cfoCoarse + cfoFine, time_offset := -frac * (N : ℝ) }

/-- Offset estimation as claim C5 words it: consume only the first
`min(num_symbols, 2)` symbols, sum `idx + findex` across them to form
`avg_index`, store `cfo = avg_index / N + (Σ unwrapped Δphase) /
((S - 1) · 2π · N)` for `S` estimation symbols (skipping the phase term when
fewer than two symbols are present) and
`time_offset = -(avg_index - round(avg_index)) · N`. -/
noncomputable def estimate_offsets_claim (sf : Nat)
    (detect : List ℂ → Fin (2 ^ sf) × ℝ × ℝ)
    (m : Metrics) (samples : List ℂ) : Metrics :=
  let N := 2 ^ sf
  let numSymbols := samples.length / N
  if numSymbols = 0 then m else
  let S := min numSymbols 2
  let obs := (List.range S).map fun s => detect ((samples.drop (s * N)).take N)
  let avgIndex := (obs.map fun r => (r.1.val : ℝ) + r.2.1).sum
  let pd := (obs.zip obs.tail).foldl
    (fun acc p => acc + unwrap (p.2.2.2 - p.1.2.2)) 0
  let cfo := avgIndex / (N : ℝ) +
    (if 2 ≤ S then pd / (((S : ℝ) - 1) * (2 * Real.pi * (N : ℝ))) else 0)
  { m with cfo := cfo,
           time_offset := -(avgIndex - floorHalf avgIndex) * (N : ℝ) }

/-- Sum of `idx + findex` over a list of detector observations given as
real triples (index, fractional index, bin phase). -/
def obsIndexSum (obs : List (ℝ × ℝ × ℝ)) : ℝ :=
  (obs.map fun o => o.1 + o.2.1).sum

/-- Sum of unwrapped phase differences of consecutive observations, starting
from a previous phase. -/
noncomputable def obsPhaseDiffFrom : ℝ → List (ℝ × ℝ × ℝ) → ℝ
  | _, [] => 0
  | prev, o :: rest => unwrap (o.2.2 - prev) + obsPhaseDiffFrom o.2.2 rest

/-- Sum of unwrapped phase differences of consecutive observations. -/
noncomputable def obsPhaseDiff : List (ℝ × ℝ × ℝ) → ℝ
  | [] => 0
  | o :: rest => obsPhaseDiffFrom o.2.2 rest

/-- The detector observations of every whole symbol window of `samples`, as
real triples. -/
noncomputable def estObservations (sf : Nat)
    (detect : List ℂ → Fin (2 ^ sf) × ℝ × ℝ) (samples : List ℂ) :
    List (ℝ × ℝ × ℝ) :=
  (List.range (samples.length / 2 ^ sf)).map (estObsF sf detect samples)

/-- A concrete detector oracle used to probe claim C5: it always reports bin
index 1 with zero fractional index and zero bin phase. -/
noncomputable def c5detect : List ℂ → Fin (2 ^ 2) × ℝ × ℝ :=
  fun _ => (⟨1, by norm_num⟩, 0, 0)

/-- Embeds `demodulate` (phy.cpp lines 129-171): shape check, capacity check,
offset estimation over the first `min(sample_count, 2N)` samples, then one
detector call per symbol window, the window being shifted by the rounded time
offset when that stays in bounds and each sample rotated at the estimated CFO
rate after multiplication by the reference downchirp. -/
noncomputable def demodulate (sf : Nat)
    (detect : List ℂ → Fin (2 ^ sf) × ℝ × ℝ)
    (m0 : Metrics) (iq : List ℂ) (symbol_cap : Nat) :
    Except PhyErr (List Nat × Metrics) :=
  let N := 2 ^ sf
  if iq.length % N ≠ 0 then .error .shape
  else
    let num := iq.length / N
    if symbol_cap < num then .error .capacity
    else
      let m := estimate_offsets sf detect m0 (iq.take (min iq.length (N * 2)))
      let tOff := roundAway m.time_offset
      let rate : ℝ := -(2 * Real.pi) * m.cfo / (N : ℝ)
      let down := (genChirp N 1 N 0 true 1 0 1).1
      let out := (List.range num).map fun s =>
        let base0 := s * N
        let base :=
          if 0 < tOff then
            (if base0 + tOff.toNat + N ≤ iq.length then base0 + tOff.toNat else base0)
          else if tOff < 0 then
            (if (-tOff).toNat ≤ base0 then base0 - (-tOff).toNat else base0)
          else base0
        let w := ((iq.drop base).take N).mapIdx fun i z =>
          z * down.getD i 0 *
            Complex.exp (Complex.I * ((rate * ((s * N : Nat) : ℝ) + rate * (i : ℝ) : ℝ) : ℂ))
        ((detect w).1.val)
      .ok (out, m)

/-- Embeds `compensate_offsets` (phy.cpp lines 100-127): rotate every sample
by the negative CFO, then shift the buffer contents by the rounded time
offset, zero filling the vacated positions — but only when that offset is
strictly smaller in magnitude than the buffer length. -/
noncomputable def compensate_offsets (sf : Nat) (m : Metrics)
    (samples : List ℂ) : List ℂ :=
  let N := 2 ^ sf
  if samples.length = 0 then samples
  else
    let rotated := samples.mapIdx fun n z =>
      z * Complex.exp (Complex.I * ((-(2 * Real.pi) * m.cfo * ((n : ℝ) / (N : ℝ)) : ℝ) : ℂ))
    let offset := roundAway m.time_offset
    if 0 < offset ∧ offset.toNat < samples.length then
      List.replicate offset.toNat 0 ++ rotated.take (samples.length - offset.toNat)
    else if offset < 0 ∧ (-offset).toNat < samples.length then
      rotated.drop (-offset).toNat ++ List.replicate (-offset).toNat 0
    else rotated

/-- The compensator as claim C6 words it: the same rotation, then an
unconditional integer shift by `round(time_offset)` with zero fill of every
vacated position, whatever the offset magnitude. -/
noncomputable def compensate_offsets_claim (sf : Nat) (m : Metrics)
    (samples : List ℂ) : List ℂ :=
  let N := 2 ^ sf
  let rotated := samples.mapIdx fun n z =>
    z * Complex.exp (Complex.I * ((-(2 * Real.pi) * m.cfo * ((n : ℝ) / (N : ℝ)) : ℝ) : ℂ))
  let offset := roundAway m.time_offset
  if 0 ≤ offset then
    List.replicate (min offset.toNat samples.length) 0 ++
      rotated.take (samples.length - offset.toNat)
  else
    rotated.drop (-offset).toNat ++
      List.replicate (min (-offset).toNat samples.length) 0

/-! ## LoRaWAN framing shim -/

/-- One step of the CRC-32 bit loop of lorawan.cpp: shift right, conditionally
xor the reflected polynomial 0xEDB88320. -/
def crc32step (c : Nat) : Nat :=
  if c % 2 = 1 then (c >>> 1) ^^^ 0xEDB88320 else c >>> 1

/-- One byte of the CRC-32 of lorawan.cpp: xor the byte into the accumulator,
then run eight bit steps. -/
def crc32byte (c b : Nat) : Nat := crc32step^[8] (c ^^^ b)

/-- Embeds the CRC-32 of lorawan.cpp (lines 10-22): initial value 0xFFFFFFFF,
reflected polynomial 0xEDB88320, final complement. -/
def crc32 (data : List Nat) : Nat :=
  (data.foldl crc32byte 0xFFFFFFFF) ^^^ 0xFFFFFFFF

/-- Embeds `compute_mic` (lorawan.cpp lines 25-27). -/
def compute_mic (data : List Nat) : Nat := crc32 data

/-- The four little-endian bytes of a 32-bit value, as pushed by
lorawan.cpp. -/
def le4 (a : Nat) : List Nat :=
  [a &&& 0xFF, (a >>> 8) &&& 0xFF, (a >>> 16) &&& 0xFF, (a >>> 24) &&& 0xFF]

/-- The two little-endian bytes of a 16-bit value. -/
def le2 (a : Nat) : List Nat := [a &&& 0xFF, (a >>> 8) &&& 0xFF]

/-- Recombination of four little-endian bytes, as read by parse_frame. -/
def join4 (b0 b1 b2 b3 : Nat) : Nat :=
  b0 ||| (b1 <<< 8) ||| (b2 <<< 16) ||| (b3 <<< 24)

/-- Recombination of two little-endian bytes. -/
def join2 (b0 b1 : Nat) : Nat := b0 ||| (b1 <<< 8)

/-- Modelled from the spec: the MHDR of lorawan.hpp (absent from src/),
section 3: a 3-bit message type and a 2-bit major version. -/
structure MHDR where
  mtype : Nat
  major : Nat
deriving DecidableEq

/-- Modelled from the spec: the FHDR of lorawan.hpp (absent from src/),
section 3: 32-bit device address, FCtrl byte, 16-bit frame counter and the
FOpts bytes. -/
structure FHDR where
  devaddr : Nat
  fctrl : Nat
  fcnt : Nat
  fopts : List Nat
deriving DecidableEq

/-- Modelled from the spec: the Frame of lorawan.hpp (absent from src/). -/
structure Frame where
  mhdr : MHDR
  fhdr : FHDR
  payload : List Nat
deriving DecidableEq

/-- The byte serialization of a frame before the MIC, exactly the `bytes`
vector built by build_frame (lorawan.cpp lines 34-50): MHDR, DevAddr little
endian, FCtrl with the FOpts length in the low nibble, FCnt little endian,
FOpts, then the payload. -/
def frameBytes (f : Frame) : List Nat :=
  ((f.mhdr.mtype <<< 5) ||| (f.mhdr.major &&& 0x3)) ::
    (le4 f.fhdr.devaddr ++
      (((f.fhdr.fctrl &&& 0xF0) ||| (f.fhdr.fopts.length &&& 0x0F)) ::
        (le2 f.fhdr.fcnt ++ f.fhdr.fopts ++ f.payload)))

/-- The full byte frame including the appended little-endian MIC. -/
def build_frame_bytes (f : Frame) : List Nat :=
  frameBytes f ++ le4 (compute_mic (frameBytes f))

/-- Embeds `build_frame` (lorawan.cpp lines 29-57): serialize, append the
CRC-32 MIC, then PHY encode against the symbol capacity. -/
def build_frame (f : Frame) (sf symbol_cap : Nat) : Except PhyErr (List Nat) :=
  encode (build_frame_bytes f) sf symbol_cap

/-- Embeds `parse_frame` (lorawan.cpp lines 59-90): PHY decode, length check
(error -1), MIC extraction and check (error -2, distinct from the shape
error), then field deserialization. -/
def parse_frame (symbols : List Nat) : Except Int Frame :=
  let bytes := lora_decode symbols
  let len := bytes.length
  if len < 12 then .error (-1)
  else
    let mic := join4 (bytes.getD (len - 4) 0) (bytes.getD (len - 3) 0)
      (bytes.getD (len - 2) 0) (bytes.getD (len - 1) 0)
    let calcMic := compute_mic (bytes.take (len - 4))
    if mic ≠ calcMic then .error (-2)
    else
      let mhdr := bytes.getD 0 0
      let devaddr := join4 (bytes.getD 1 0) (bytes.getD 2 0)
        (bytes.getD 3 0) (bytes.getD 4 0)
      let fctrl := bytes.getD 5 0
      let fopts_len := fctrl &&& 0x0F
      let fcnt := join2 (bytes.getD 6 0) (bytes.getD 7 0)
      if len - 4 < 8 + fopts_len then .error (-1)
      else
        .ok { mhdr := { mtype := mhdr >>> 5, major := mhdr &&& 0x3 }
              fhdr := { devaddr := devaddr, fctrl := fctrl, fcnt := fcnt,
                        fopts := (bytes.drop 8).take fopts_len }
              payload := (bytes.drop (8 + fopts_len)).take (len - 4 - (8 + fopts_len)) }

/-! ## Helper lemmas -/

theorem hamming_nibble_roundtrip :
    ∀ v : Fin 16,
      decodeHamming84sx (encodeHamming84sx v.val) = ⟨v.val, false, false⟩ := by
  decide

theorem natOfBits_testBit (l : List Bool) (i : Nat) :
    (natOfBits l).testBit i = l.getD i false := by
  induction l generalizing i with
  | nil => simp [natOfBits]
  | cons b rest ih =>
    cases i with
    | zero =>
      cases b <;>
        simp [natOfBits, Nat.testBit_zero, Nat.add_mul_mod_self_left,
          Nat.mul_mod_right]
    | succ i =>
      rw [Nat.testBit_add_one]
      have h2 : natOfBits (b :: rest) / 2 = natOfBits rest := by
        cases b <;> simp [natOfBits] <;> omega
      rw [h2, ih]
      simp

theorem natOfBits_testBits_range (n w : Nat) (h : n < 2 ^ w) :
    natOfBits ((List.range w).map fun i => n.testBit i) = n := by
  apply Nat.eq_of_testBit_eq
  intro i
  rw [natOfBits_testBit]
  rcases Nat.lt_or_ge i w with hi | hi
  · rw [List.getD_eq_getElem?_getD]
    simp [List.getElem?_map, List.getElem?_range, hi]
  · rw [List.getD_eq_getElem?_getD]
    rw [List.getElem?_eq_none (by simp; omega)]
    have hni : n < 2 ^ i := lt_of_lt_of_le h (Nat.pow_le_pow_right (by norm_num) hi)
    simp [Nat.testBit_lt_two_pow hni]

theorem diag_index_cancel (sf r c : Nat) (hr : r < sf) :
    ((r + sf - c % sf) % sf + c) % sf = r := by
  have hsf : 0 < sf := lt_of_le_of_lt (Nat.zero_le r) hr
  have hm : c % sf < sf := Nat.mod_lt _ hsf
  rw [Nat.mod_add_mod]
  have hc : sf * (c / sf) + c % sf = c := Nat.div_add_mod c sf
  have he : r + sf - c % sf + c = r + sf * (1 + c / sf) := by
    have hq : sf * (1 + c / sf) = sf + sf * (c / sf) := by ring
    omega
  rw [he, Nat.add_mul_mod_self_left, Nat.mod_eq_of_lt hr]

theorem interleaveBlock_length (sf rdd : Nat) (block : List Nat) :
    (interleaveBlock sf rdd block).length = 4 + rdd := by
  simp [interleaveBlock]

theorem deinterleaveBlock_interleaveBlock (sf rdd : Nat) (block : List Nat)
    (hlen : block.length = sf)
    (hw : ∀ x ∈ block, x < 2 ^ (4 + rdd)) :
    deinterleaveBlock sf rdd (interleaveBlock sf rdd block) = block := by
  apply List.ext_getElem
  · simp [deinterleaveBlock, hlen]
  intro r h1 h2
  simp only [deinterleaveBlock, List.length_map, List.length_range] at h1
  simp only [deinterleaveBlock, List.getElem_map, List.getElem_range]
  have hmap : ∀ c ∈ List.range (4 + rdd),
      ((interleaveBlock sf rdd block).getD c 0).testBit ((r + sf - c % sf) % sf) =
        (block.getD r 0).testBit c := by
    intro c hcmem
    rw [List.mem_range] at hcmem
    have hib : (interleaveBlock sf rdd block).getD c 0 =
        natOfBits ((List.range sf).map fun q =>
          (block.getD ((q + c) % sf) 0).testBit c) := by
      rw [List.getD_eq_getElem?_getD]
      simp [interleaveBlock, List.getElem?_map, List.getElem?_range, hcmem]
    rw [hib, natOfBits_testBit]
    have hpos : (r + sf - c % sf) % sf < sf :=
      Nat.mod_lt _ (lt_of_le_of_lt (Nat.zero_le r) h1)
    rw [List.getD_eq_getElem?_getD]
    simp only [List.getElem?_map, List.getElem?_range, hpos]
    simp [diag_index_cancel sf r c h1]
  have hgetd : block.getD r 0 = block[r] := by
    rw [List.getD_eq_getElem?_getD, List.getElem?_eq_getElem (by omega)]
    rfl
  rw [List.map_congr_left hmap, hgetd]
  exact natOfBits_testBits_range _ _ (hw _ (List.getElem_mem _))

theorem interleaveGo_length (sf rdd k : Nat) (cws : List Nat) :
    (interleaveGo sf rdd k cws).length = k * (4 + rdd) := by
  induction k generalizing cws with
  | zero => simp [interleaveGo]
  | succ k ih =>
    simp [interleaveGo, interleaveBlock_length, ih]
    ring

theorem deinterleaveGo_interleaveGo (sf rdd k : Nat) (cws : List Nat)
    (hsf : 0 < sf) (hlen : cws.length = k * sf)
    (hw : ∀ x ∈ cws, x < 2 ^ (4 + rdd)) :
    deinterleaveGo sf rdd k (interleaveGo sf rdd k cws) = cws := by
  induction k generalizing cws with
  | zero =>
    have hnil : cws = [] := List.length_eq_zero.mp (by omega)
    simp [hnil, interleaveGo, deinterleaveGo]
  | succ k ih =>
    have hsfle : sf ≤ cws.length := by
      rw [hlen]
      calc sf = 1 * sf := (one_mul sf).symm
        _ ≤ (k + 1) * sf := Nat.mul_le_mul_right sf (by omega)
    rw [show interleaveGo sf rdd (k + 1) cws =
        interleaveBlock sf rdd (cws.take sf) ++
          interleaveGo sf rdd k (cws.drop sf) from rfl]
    rw [show deinterleaveGo sf rdd (k + 1)
        (interleaveBlock sf rdd (cws.take sf) ++
          interleaveGo sf rdd k (cws.drop sf)) =
        deinterleaveBlock sf rdd
          ((interleaveBlock sf rdd (cws.take sf) ++
            interleaveGo sf rdd k (cws.drop sf)).take (4 + rdd)) ++
        deinterleaveGo sf rdd k
          ((interleaveBlock sf rdd (cws.take sf) ++
            interleaveGo sf rdd k (cws.drop sf)).drop (4 + rdd)) from rfl]
    rw [List.take_left' (interleaveBlock_length sf rdd _),
        List.drop_left' (interleaveBlock_length sf rdd _)]
    rw [deinterleaveBlock_interleaveBlock sf rdd (cws.take sf)
        (by rw [List.length_take]; omega)
        (fun x hx => hw x (List.mem_of_mem_take hx))]
    rw [ih (cws.drop sf) (by
        rw [List.length_drop]
        have hmul : (k + 1) * sf = k * sf + sf := by ring
        omega)
        (fun x hx => hw x (List.mem_of_mem_drop hx))]
    exact List.take_append_drop sf cws

theorem genChirp_length (N osr step : Nat) (freq : ℝ) (down : Bool)
    (amplitude phase bwScale : ℝ) :
    (genChirp N osr step freq down amplitude phase bwScale).1.length = step := by
  simp [genChirp]

theorem lora_modulate_go_length (sf osr : Nat) (bwScale amplitude : ℝ)
    (symbols : List Nat) (acc : List ℂ × ℝ) :
    ((symbols.foldl
      (fun (acc : List ℂ × ℝ) (k : Nat) =>
        let freq := 2 * Real.pi * (k : ℝ) * bwScale /
          (((2 ^ sf : Nat) : ℝ) * (osr : ℝ))
        let c := genChirp (2 ^ sf) osr (2 ^ sf * osr) freq false amplitude
          acc.2 bwScale
        (acc.1 ++ c.1, c.2)) acc).1).length
      = acc.1.length + symbols.length * (2 ^ sf * osr) := by
  induction symbols generalizing acc with
  | nil => simp
  | cons k rest ih =>
    rw [List.foldl_cons, ih]
    simp [genChirp_length]
    ring

theorem lora_modulate_length (symbols : List Nat) (sf osr : Nat)
    (bwScale amplitude : ℝ) :
    (lora_modulate symbols sf osr bwScale amplitude).length =
      symbols.length * 2 ^ sf * osr := by
  have h := lora_modulate_go_length sf osr bwScale amplitude symbols ([], 0)
  simpa [lora_modulate, Nat.mul_assoc] using h

theorem unwrap_zero : unwrap 0 = 0 := by
  rw [unwrap, if_neg (not_lt.mpr Real.pi_pos.le),
    if_neg (not_lt.mpr (neg_nonpos.mpr Real.pi_pos.le))]

theorem obsIndexSum_nil : obsIndexSum [] = 0 := rfl

theorem obsIndexSum_cons (o : ℝ × ℝ × ℝ) (rest : List (ℝ × ℝ × ℝ)) :
    obsIndexSum (o :: rest) = o.1 + o.2.1 + obsIndexSum rest := by
  simp [obsIndexSum]

theorem estStep_fold (sf : Nat) (detect : List ℂ → Fin (2 ^ sf) × ℝ × ℝ)
    (samples : List ℂ) (l : List Nat) :
    ∀ a p φ : ℝ,
      ((l.foldl (estStep sf detect samples) (a, p, φ, true)).1 =
        a + obsIndexSum (l.map (estObsF sf detect samples))) ∧
      ((l.foldl (estStep sf detect samples) (a, p, φ, true)).2.1 =
        p + obsPhaseDiffFrom φ (l.map (estObsF sf detect samples))) := by
  induction l with
  | nil => intro a p φ; simp [obsIndexSum, obsPhaseDiffFrom]
  | cons s rest ih =>
    intro a p φ
    rw [List.foldl_cons]
    have hstep : estStep sf detect samples (a, p, φ, true) s =
        (a + (estObsF sf detect samples s).1 + (estObsF sf detect samples s).2.1,
         p + unwrap ((estObsF sf detect samples s).2.2 - φ),
         (estObsF sf detect samples s).2.2, true) := by
      simp [estStep]
    rw [hstep]
    obtain ⟨h1, h2⟩ := ih (a + (estObsF sf detect samples s).1 +
      (estObsF sf detect samples s).2.1)
      (p + unwrap ((estObsF sf detect samples s).2.2 - φ))
      ((estObsF sf detect samples s).2.2)
    constructor
    · rw [h1, List.map_cons, obsIndexSum_cons]
      ring
    · rw [h2, List.map_cons]
      rw [show obsPhaseDiffFrom φ (estObsF sf detect samples s ::
          rest.map (estObsF sf detect samples)) =
        unwrap ((estObsF sf detect samples s).2.2 - φ) +
          obsPhaseDiffFrom (estObsF sf detect samples s).2.2
            (rest.map (estObsF sf detect samples)) from rfl]
      ring

theorem roundAway_two : roundAway (2 : ℝ) = 2 := by
  rw [roundAway, if_pos (by norm_num)]
  norm_num

theorem roundAway_one : roundAway (1 : ℝ) = 1 := by
  rw [roundAway, if_pos (by norm_num)]
  norm_num

/-! ## Claim theorems -/

/-- Claim C3: for every nibble v, decodeHamming84sx (encodeHamming84sx v)
returns (v, err = false, bad = false); for every single-bit flip of the
codeword, decode returns (v, err = true, bad = false); and the two-bit flip of
bits 4 and 5 of the codeword of nibble 0 sets bad = true. -/
theorem hamming84_roundtrip_and_flips :
    (∀ v : Fin 16,
      decodeHamming84sx (encodeHamming84sx v.val) = ⟨v.val, false, false⟩) ∧
    (∀ v : Fin 16, ∀ i : Fin 8,
      decodeHamming84sx (encodeHamming84sx v.val ^^^ (1 <<< i.val)) =
        ⟨v.val, true, false⟩) ∧
    (decodeHamming84sx (encodeHamming84sx 0 ^^^ (1 <<< 4) ^^^ (1 <<< 5))).bad
      = true := by
  decide

/-- Claim C4: for every codeword sequence X whose length is a multiple of sf
(codewords carrying 4 + rdd bits, per the data model of spec section 4.4),
deinterleaving the interleaved sequence returns X, where the interleaver maps
the bit at input (row r, col c) to output symbol c, bit position
(r - c) mod sf, and the deinterleaver applies the inverse permutation. -/
theorem interleaver_roundtrip (sf rdd : Nat) (X : List Nat) (hsf : 0 < sf)
    (hlen : X.length % sf = 0) (hw : ∀ x ∈ X, x < 2 ^ (4 + rdd)) :
    diagonalDeterleaveSx (diagonalInterleaveSx X sf rdd) sf rdd = X := by
  unfold diagonalDeterleaveSx diagonalInterleaveSx
  have hdvd : sf ∣ X.length := Nat.dvd_of_mod_eq_zero hlen
  have hk : X.length = X.length / sf * sf := (Nat.div_mul_cancel hdvd).symm
  rw [interleaveGo_length]
  rw [Nat.mul_div_cancel _ (by omega : 0 < 4 + rdd)]
  exact deinterleaveGo_interleaveGo sf rdd _ X hsf hk hw

/-- Witness for C4 at sf = 2, rdd = 0, X = [1, 2]. -/
theorem interleaver_roundtrip_witness :
    0 < 2 ∧ ([1, 2] : List Nat).length % 2 = 0 ∧
    (∀ x ∈ ([1, 2] : List Nat), x < 2 ^ (4 + 0)) ∧
    diagonalDeterleaveSx (diagonalInterleaveSx [1, 2] 2 0) 2 0 = [1, 2] :=
  ⟨by decide, by decide, by decide,
    interleaver_roundtrip 2 0 [1, 2] (by decide) (by decide) (by decide)⟩

/-- Claim C2: demodulate (phy.cpp, the osr = 1 evolution of the pipeline, so
N·osr = N) fails with the shape error exactly when the sample count is not a
multiple of N = 2^sf; on success it consumes exactly out.length · N samples —
all of its input — and produces iq.length / N symbols, each below N (the
detector returns a bin index in [0, N), spec section 4.6); and lora_modulate
(LoRaMod.cpp) produces exactly symbol_count · N · osr samples. -/
theorem demodulate_shape_counts_and_modulate_length (sf osr : Nat)
    (detect : List ℂ → Fin (2 ^ sf) × ℝ × ℝ) (m0 : Metrics)
    (iq : List ℂ) (cap : Nat) (symbols : List Nat) (bwScale amplitude : ℝ) :
    (demodulate sf detect m0 iq cap = .error .shape ↔ ¬ (2 ^ sf ∣ iq.length)) ∧
    (∀ out m, demodulate sf detect m0 iq cap = .ok (out, m) →
      out.length = iq.length / 2 ^ sf ∧
      out.length * 2 ^ sf = iq.length ∧
      ∀ y ∈ out, y < 2 ^ sf) ∧
    (lora_modulate symbols sf osr bwScale amplitude).length =
      symbols.length * 2 ^ sf * osr := by
  refine ⟨?_, ?_, lora_modulate_length symbols sf osr bwScale amplitude⟩
  · unfold demodulate
    by_cases h : iq.length % 2 ^ sf = 0
    · have hdvd : 2 ^ sf ∣ iq.length := Nat.dvd_of_mod_eq_zero h
      by_cases hc : cap < iq.length / 2 ^ sf
      · simp [h, hc, hdvd]
      · simp [h, hc, hdvd]
    · have hdvd : ¬ 2 ^ sf ∣ iq.length := fun hd => h (Nat.mod_eq_zero_of_dvd hd)
      simp [h, hdvd]
  · intro out m hok
    unfold demodulate at hok
    by_cases h : iq.length % 2 ^ sf = 0
    · by_cases hc : cap < iq.length / 2 ^ sf
      · simp [h, hc] at hok
      · simp [h, hc] at hok
        obtain ⟨hout, hm⟩ := hok
        subst hout
        refine ⟨by simp, ?_, ?_⟩
        · simp
          exact Nat.div_mul_cancel (Nat.dvd_of_mod_eq_zero h)
        · intro y hy
          simp [List.mem_map] at hy
          obtain ⟨s, hs, hyeq⟩ := hy
          subst hyeq
          exact Fin.isLt _
    · simp [h] at hok

/-- Witness for C2: a 3-sample input at sf = 1 (N = 2) fails with the shape
error. -/
theorem demodulate_shape_counts_and_modulate_length_witness :
    demodulate 1 (fun _ => (⟨0, by norm_num⟩, (0 : ℝ), (0 : ℝ))) zeroMetrics
      [1, 1, 1] 5 = .error .shape :=
  (demodulate_shape_counts_and_modulate_length 1 1
    (fun _ => (⟨0, by norm_num⟩, 0, 0)) zeroMetrics
    [1, 1, 1] 5 [] 1 1).1.mpr (by decide)

/-- Claim C5 counterexample: estimate_offsets of phy.cpp does not stop after
min(num_symbols, 2) symbols — it averages idx + findex over every whole
symbol of its input.  With the constant detector reporting index 1 and a
12-sample input at N = 4 (three symbols), the code stores
cfo = mean(1,1,1)/4 = 1/4, while the claim's computation (sum over the first
two symbols, divided by N) yields 2/4 = 1/2. -/
theorem estimate_offsets_ignores_min_two :
    (estimate_offsets 2 c5detect zeroMetrics (List.replicate 12 0)).cfo = 1 / 4 ∧
    (estimate_offsets_claim 2 c5detect zeroMetrics (List.replicate 12 0)).cfo
      = 1 / 2 ∧
    ((1 : ℝ) / 4) ≠ 1 / 2 := by
  refine ⟨?_, ?_, by norm_num⟩
  · rw [estimate_offsets]
    norm_num [estStep, estObsF, c5detect, unwrap_zero, List.range_succ]
  · rw [estimate_offsets_claim]
    norm_num [c5detect, unwrap_zero, List.range_succ]

/-- Claim C5 amended: estimate_offsets consumes every whole symbol of its
input (the min(num_symbols, 2) truncation is applied by its caller
demodulate, not by the estimator), and avg_index is the mean — not the sum —
of idx + findex over those S = num_symbols symbols; then
cfo = avg_index/N + (Σ unwrapped Δphase / (S-1)) / (2π·N), with the
phase-difference term skipped when fewer than two symbols are present, and
time_offset = -(avg_index - round(avg_index))·N; with no whole symbol the
call succeeds leaving the metrics untouched. -/
theorem estimate_offsets_every_symbol (sf : Nat)
    (detect : List ℂ → Fin (2 ^ sf) × ℝ × ℝ) (m : Metrics) (samples : List ℂ)
    (h : 0 < samples.length / 2 ^ sf) :
    estimate_offsets sf detect m samples =
      { m with
        cfo := obsIndexSum (estObservations sf detect samples) /
            ((samples.length / 2 ^ sf : Nat) : ℝ) / ((2 ^ sf : Nat) : ℝ) +
          (if 1 < samples.length / 2 ^ sf then
            (obsPhaseDiff (estObservations sf detect samples) /
              (((samples.length / 2 ^ sf : Nat) : ℝ) - 1)) /
              (2 * Real.pi * ((2 ^ sf : Nat) : ℝ))
           else 0),
        time_offset :=
          -(obsIndexSum (estObservations sf detect samples) /
              ((samples.length / 2 ^ sf : Nat) : ℝ) -
            floorHalf (obsIndexSum (estObservations sf detect samples) /
              ((samples.length / 2 ^ sf : Nat) : ℝ))) * ((2 ^ sf : Nat) : ℝ) } := by
  obtain ⟨k, hk⟩ : ∃ k, samples.length / 2 ^ sf = k + 1 :=
    ⟨samples.length / 2 ^ sf - 1, by omega⟩
  have hfold := estStep_fold sf detect samples
  rw [estimate_offsets]
  simp only [hk]
  rw [if_neg (by omega)]
  rw [List.range_succ_eq_map, List.foldl_cons]
  have hstep0 : estStep sf detect samples (0, 0, 0, false) 0 =
      ((estObsF sf detect samples 0).1 + (estObsF sf detect samples 0).2.1,
       0, (estObsF sf detect samples 0).2.2, true) := by
    simp [estStep]
  rw [hstep0]
  obtain ⟨h1, h2⟩ := hfold ((List.range k).map Nat.succ)
    ((estObsF sf detect samples 0).1 + (estObsF sf detect samples 0).2.1)
    0 ((estObsF sf detect samples 0).2.2)
  rw [h1, h2]
  have hobs : estObservations sf detect samples =
      estObsF sf detect samples 0 ::
        ((List.range k).map Nat.succ).map (estObsF sf detect samples) := by
    rw [estObservations, hk, List.range_succ_eq_map, List.map_cons, List.map_map]
  rw [hobs, obsIndexSum_cons]
  rw [show obsPhaseDiff (estObsF sf detect samples 0 ::
      ((List.range k).map Nat.succ).map (estObsF sf detect samples)) =
    obsPhaseDiffFrom (estObsF sf detect samples 0).2.2
      (((List.range k).map Nat.succ).map (estObsF sf detect samples)) from rfl]
  simp only [zero_add]

/-- Witness for C5 amended: one whole symbol of four zero samples at N = 4
with the constant index-1 detector gives cfo = 1/4. -/
theorem estimate_offsets_every_symbol_witness :
    0 < (List.replicate 4 (0 : ℂ)).length / 2 ^ 2 ∧
    (estimate_offsets 2 c5detect zeroMetrics (List.replicate 4 0)).cfo
      = 1 / 4 := by
  constructor
  · norm_num
  · rw [estimate_offsets_every_symbol 2 c5detect zeroMetrics _ (by norm_num)]
    norm_num [estObservations, estObsF, c5detect, obsIndexSum, List.range_succ]

/-- Claim C6 counterexample: with cfo = 0 and time_offset = 2 on a two sample
buffer, compensate_offsets of phy.cpp leaves the (trivially rotated) buffer
unshifted, because the rounded offset is not strictly smaller than the buffer
length, while the claimed unconditional shift with zero fill of all vacated
positions would zero the whole buffer. -/
theorem compensate_offsets_unconditional_shift_fails :
    compensate_offsets 1 { crc_ok := false, cfo := 0, time_offset := 2 } [1, 1]
      = [1, 1] ∧
    compensate_offsets_claim 1 { crc_ok := false, cfo := 0, time_offset := 2 }
      [1, 1] = [0, 0] ∧
    ([1, 1] : List ℂ) ≠ [0, 0] := by
  refine ⟨?_, ?_, by simp⟩
  · rw [compensate_offsets]
    simp [roundAway_two, List.mapIdx_cons, List.mapIdx_nil, Complex.exp_zero]
  · rw [compensate_offsets_claim]
    simp [roundAway_two, List.mapIdx_cons, List.mapIdx_nil, Complex.exp_zero]

/-- Claim C6 amended: whenever the rounded time offset is strictly smaller in
magnitude than the buffer length, compensate_offsets applies in place the
complex rotation of angular rate -2π·cfo/N per sample followed by the integer
shift by round(time_offset) (positive = delay, negative = advance), zero
filling the vacated positions; for larger offsets the code skips the shift. -/
theorem compensate_offsets_shift_in_range (sf : Nat) (m : Metrics)
    (samples : List ℂ)
    (h : (roundAway m.time_offset).natAbs < samples.length) :
    compensate_offsets sf m samples = compensate_offsets_claim sf m samples := by
  have hne : ¬ samples.length = 0 := by omega
  rw [compensate_offsets, compensate_offsets_claim]
  rw [if_neg hne]
  rcases lt_trichotomy (roundAway m.time_offset) 0 with hneg | hzero | hpos
  · rw [if_neg (by omega), if_pos (by omega), if_neg (by omega)]
    congr 1
    congr 1
    omega
  · rw [if_neg (by omega), if_neg (by omega), if_pos (by omega)]
    rw [hzero]
    simp
  · rw [if_pos (by omega), if_pos (by omega)]
    congr 2
    omega

/-- Witness for C6 amended at cfo = 0, time_offset = 1, two samples. -/
theorem compensate_offsets_shift_in_range_witness :
    (roundAway (1 : ℝ)).natAbs < ([1, 1] : List ℂ).length ∧
    compensate_offsets 7 { crc_ok := false, cfo := 0, time_offset := 1 } [1, 1]
      = compensate_offsets_claim 7
          { crc_ok := false, cfo := 0, time_offset := 1 } [1, 1] := by
  have h : (roundAway (1 : ℝ)).natAbs < ([1, 1] : List ℂ).length := by
    rw [roundAway_one]
    norm_num
  exact ⟨h, compensate_offsets_shift_in_range 7
    { crc_ok := false, cfo := 0, time_offset := 1 } [1, 1] h⟩

/-- Claim C7 (code bug): init is claimed to fail with an invalid-argument
error whenever sf is outside [7, 12], osr < 1, bw is invalid or cr is outside
[1, 4]; phy.cpp performs no such validation.  With sf = 13, bw = 99, cr = 0
and osr = 0 — violating all four conditions at once — init still returns 0
(success), prepares both FFT plans for N = 2^13 and zeroes the metrics. -/
theorem init_accepts_out_of_range_params :
    init { sf := 13, bw := 99, cr := 0, osr := 0 } =
      { ret := 0, plan_fwd_nfft := 8192, plan_inv_nfft := 8192,
        metrics := zeroMetrics } := rfl

/-- Claim C8 (code bug): the workspace operations do return a signed count on
success and a negative code on failure, but phy.cpp returns the same -1 at
every failure return site, so the invalid-argument code is not distinct from
the capacity-too-small code (phy.hpp documents -EINVAL and -ERANGE for the
two kinds).  Concretely, encode of a one byte payload with symbol capacity 0
fails with the capacity failure, and both failure kinds map to the same
code -1. -/
theorem error_codes_collapse :
    encode [0] 7 0 = .error .capacity ∧
    phyErrCode .capacity = -1 ∧ phyErrCode .invalid = -1 ∧
    phyErrCode .invalid = phyErrCode .capacity :=
  ⟨rfl, rfl, rfl, rfl⟩

theorem hamming_nibble_roundtrip' (v : Nat) (h : v < 16) :
    decodeHamming84sx (encodeHamming84sx v) = ⟨v, false, false⟩ :=
  hamming_nibble_roundtrip ⟨v, h⟩

theorem lora_decode_lora_encode (payload : List Nat) (sf : Nat)
    (h : ∀ b ∈ payload, b < 256) :
    lora_decode (lora_encode payload sf) = payload := by
  induction payload with
  | nil => rfl
  | cons b rest ih =>
    have hb : b < 256 := h b (by simp)
    have hstep : lora_encode (b :: rest) sf =
        encodeHamming84sx (b / 16) :: encodeHamming84sx (b % 16) ::
          lora_encode rest sf := rfl
    rw [hstep]
    rw [show lora_decode (encodeHamming84sx (b / 16) ::
        encodeHamming84sx (b % 16) :: lora_encode rest sf) =
      ((decodeHamming84sx (encodeHamming84sx (b / 16))).nibble * 16 +
        (decodeHamming84sx (encodeHamming84sx (b % 16))).nibble) ::
        lora_decode (lora_encode rest sf) from rfl]
    rw [hamming_nibble_roundtrip' (b / 16) (by omega),
        hamming_nibble_roundtrip' (b % 16) (by omega)]
    rw [ih (fun x hx => h x (by simp [hx]))]
    simp
    omega

theorem lora_encode_length (payload : List Nat) (sf : Nat) :
    (lora_encode payload sf).length = 2 * payload.length := by
  induction payload with
  | nil => rfl
  | cons b rest ih =>
    rw [show lora_encode (b :: rest) sf =
      encodeHamming84sx (b / 16) :: encodeHamming84sx (b % 16) ::
        lora_encode rest sf from rfl]
    simp [ih]
    ring

theorem or_shift_add (k x y : Nat) (h : x < 2 ^ k) :
    x ||| (y <<< k) = x + 2 ^ k * y := by
  rw [Nat.shiftLeft_eq, Nat.or_comm, mul_comm y (2 ^ k),
    ← Nat.mul_add_lt_is_or h, Nat.add_comm]

theorem join4_eq (b0 b1 b2 b3 : Nat) (h0 : b0 < 256) (h1 : b1 < 256)
    (h2 : b2 < 256) :
    join4 b0 b1 b2 b3 = b0 + 256 * b1 + 65536 * b2 + 16777216 * b3 := by
  rw [join4]
  rw [or_shift_add 8 b0 b1 (by norm_num; omega)]
  rw [or_shift_add 16 _ b2 (by norm_num; omega)]
  rw [or_shift_add 24 _ b3 (by norm_num; omega)]
  norm_num

theorem join2_eq (b0 b1 : Nat) (h0 : b0 < 256) :
    join2 b0 b1 = b0 + 256 * b1 := by
  rw [join2]
  rw [or_shift_add 8 b0 b1 (by norm_num; omega)]
  norm_num

theorem and_255_eq_mod (x : Nat) : x &&& 0xFF = x % 256 := by
  have h := Nat.and_pow_two_sub_one_eq_mod x 8
  norm_num at h
  exact h

theorem join4_le4 (a : Nat) (h : a < 2 ^ 32) :
    join4 (a &&& 0xFF) ((a >>> 8) &&& 0xFF) ((a >>> 16) &&& 0xFF)
      ((a >>> 24) &&& 0xFF) = a := by
  rw [join4_eq _ _ _ _ (by rw [and_255_eq_mod]; omega)
    (by rw [and_255_eq_mod]; omega) (by rw [and_255_eq_mod]; omega)]
  rw [and_255_eq_mod, and_255_eq_mod, and_255_eq_mod, and_255_eq_mod]
  rw [Nat.shiftRight_eq_div_pow, Nat.shiftRight_eq_div_pow,
    Nat.shiftRight_eq_div_pow]
  norm_num at h ⊢
  omega

theorem join2_le2 (a : Nat) (h : a < 2 ^ 16) :
    join2 (a &&& 0xFF) ((a >>> 8) &&& 0xFF) = a := by
  rw [join2_eq _ _ (by rw [and_255_eq_mod]; omega)]
  rw [and_255_eq_mod, and_255_eq_mod, Nat.shiftRight_eq_div_pow]
  norm_num at h ⊢
  omega



theorem crc32step_lt (c : Nat) (h : c < 2 ^ 32) : crc32step c < 2 ^ 32 := by
  rw [crc32step]
  split
  · exact Nat.xor_lt_two_pow
      (lt_of_le_of_lt (by rw [Nat.shiftRight_eq_div_pow]; omega) h)
      (by norm_num)
  · rw [Nat.shiftRight_eq_div_pow]
    omega

theorem crc32step_iter_lt (n x : Nat) (hx : x < 2 ^ 32) :
    crc32step^[n] x < 2 ^ 32 := by
  induction n generalizing x with
  | zero => simpa using hx
  | succ n ih =>
    rw [Function.iterate_succ_apply]
    exact ih _ (crc32step_lt x hx)

theorem crc32byte_lt (c b : Nat) (hc : c < 2 ^ 32) (hb : b < 256) :
    crc32byte c b < 2 ^ 32 := by
  rw [crc32byte]
  exact crc32step_iter_lt 8 _ (Nat.xor_lt_two_pow hc (by omega))

theorem crc32_foldl_lt (data : List Nat) (h : ∀ b ∈ data, b < 256) :
    ∀ acc, acc < 2 ^ 32 → data.foldl crc32byte acc < 2 ^ 32 := by
  induction data with
  | nil => intro acc hacc; simpa using hacc
  | cons b rest ih =>
    intro acc hacc
    rw [List.foldl_cons]
    exact ih (fun x hx => h x (by simp [hx]))
      _ (crc32byte_lt acc b hacc (h b (by simp)))

theorem crc32_lt (data : List Nat) (h : ∀ b ∈ data, b < 256) :
    crc32 data < 2 ^ 32 := by
  rw [crc32]
  exact Nat.xor_lt_two_pow (crc32_foldl_lt data h _ (by norm_num)) (by norm_num)

theorem compute_mic_lt (data : List Nat) (h : ∀ b ∈ data, b < 256) :
    compute_mic data < 2 ^ 32 := crc32_lt data h

theorem le4_lt (a : Nat) : ∀ x ∈ le4 a, x < 256 := by
  intro x hx
  simp [le4] at hx
  rcases hx with h | h | h | h <;>
    (rw [h, and_255_eq_mod]; omega)

theorem le2_lt (a : Nat) : ∀ x ∈ le2 a, x < 256 := by
  intro x hx
  simp [le2] at hx
  rcases hx with h | h <;> (rw [h, and_255_eq_mod]; omega)

theorem mhdr_byte_lt (m j : Nat) (hm : m < 8) :
    (m <<< 5) ||| (j &&& 0x3) < 256 := by
  apply Nat.or_lt_two_pow (n := 8)
  · rw [Nat.shiftLeft_eq]
    omega
  · exact Nat.and_lt_two_pow j (by norm_num)

theorem fctrl_byte_lt (x o : Nat) (hx : x < 256) :
    (x &&& 0xF0) ||| (o &&& 0x0F) < 256 := by
  apply Nat.or_lt_two_pow (n := 8)
  · exact Nat.and_lt_two_pow x (by norm_num)
  · exact Nat.and_lt_two_pow o (by norm_num)

theorem frameBytes_length (f : Frame) :
    (frameBytes f).length = 8 + f.fhdr.fopts.length + f.payload.length := by
  simp [frameBytes, le4, le2]
  ring

theorem frameBytes_lt (f : Frame) (hm : f.mhdr.mtype < 8)
    (hc : f.fhdr.fctrl < 256)
    (hfo : ∀ b ∈ f.fhdr.fopts, b < 256) (hp : ∀ b ∈ f.payload, b < 256) :
    ∀ x ∈ frameBytes f, x < 256 := by
  intro x hx
  simp only [frameBytes, List.mem_cons, List.mem_append] at hx
  rcases hx with h | h
  · rw [h]; exact mhdr_byte_lt _ _ hm
  rcases h with h | h
  · exact le4_lt _ x h
  rcases h with h | h
  · rw [h]; exact fctrl_byte_lt _ _ hc
  rcases h with h | h
  · rcases h with h | h
    · exact le2_lt _ x h
    · exact hfo x h
  · exact hp x h

theorem mhdr_fields_roundtrip :
    ∀ m : Fin 8, ∀ j : Fin 4,
      ((m.val <<< 5) ||| (j.val &&& 0x3)) >>> 5 = m.val ∧
      ((m.val <<< 5) ||| (j.val &&& 0x3)) &&& 0x3 = j.val := by
  decide

set_option maxRecDepth 4096 in
theorem fctrl_nibbles :
    ∀ x : Fin 256, (x.val &&& 0xF0) ||| ((x.val % 16) &&& 0x0F) = x.val := by
  decide

theorem and_15_eq_mod (x : Nat) : x &&& 0x0F = x % 16 := by
  have h := Nat.and_pow_two_sub_one_eq_mod x 4
  norm_num at h
  exact h



theorem mhdr_fields_roundtrip' (m j : Nat) (hm : m < 8) (hj : j < 4) :
    ((m <<< 5) ||| (j &&& 0x3)) >>> 5 = m ∧
    ((m <<< 5) ||| (j &&& 0x3)) &&& 0x3 = j :=
  mhdr_fields_roundtrip ⟨m, hm⟩ ⟨j, hj⟩

theorem fctrl_nibbles' (x : Nat) (hx : x < 256) :
    (x &&& 0xF0) ||| ((x % 16) &&& 0x0F) = x :=
  fctrl_nibbles ⟨x, hx⟩

theorem parse_frame_encode_frame (f : Frame) (sf : Nat) (mic4 : List Nat)
    (hm : f.mhdr.mtype < 8) (hj : f.mhdr.major < 4)
    (hc : f.fhdr.fctrl < 256) (hnib : f.fhdr.fctrl % 16 = f.fhdr.fopts.length)
    (ha : f.fhdr.devaddr < 2 ^ 32) (hn : f.fhdr.fcnt < 2 ^ 16)
    (hfo : ∀ b ∈ f.fhdr.fopts, b < 256) (hp : ∀ b ∈ f.payload, b < 256)
    (hm4len : mic4.length = 4) (hm4 : ∀ b ∈ mic4, b < 256) :
    parse_frame (lora_encode (frameBytes f ++ mic4) sf) =
      if join4 (mic4.getD 0 0) (mic4.getD 1 0) (mic4.getD 2 0) (mic4.getD 3 0)
          = compute_mic (frameBytes f)
      then .ok f else .error (-2) := by
  obtain ⟨⟨mt, mj⟩, ⟨da, fc, cn, fo⟩, pl⟩ := f
  simp only at hm hj hc hnib ha hn hfo hp
  set F : Frame := ⟨⟨mt, mj⟩, ⟨da, fc, cn, fo⟩, pl⟩ with hF
  have hL : ∀ x ∈ frameBytes F ++ mic4, x < 256 := by
    intro x hx
    rcases List.mem_append.mp hx with h | h
    · exact frameBytes_lt _ hm hc hfo hp x h
    · exact hm4 x h
  simp only [parse_frame]
  rw [lora_decode_lora_encode _ sf hL]
  have hAlen : (frameBytes F).length = 8 + fo.length + pl.length := by
    rw [frameBytes_length]
  have hLlen : (frameBytes F ++ mic4).length = (frameBytes F).length + 4 := by
    rw [List.length_append, hm4len]
  rw [if_neg (by omega)]
  have hg0 : (frameBytes F ++ mic4).getD ((frameBytes F ++ mic4).length - 4) 0
      = mic4.getD 0 0 := by
    rw [List.getD_append_right _ _ _ _ (by omega)]
    congr 1
    omega
  have hg1 : (frameBytes F ++ mic4).getD ((frameBytes F ++ mic4).length - 3) 0
      = mic4.getD 1 0 := by
    rw [List.getD_append_right _ _ _ _ (by omega)]
    congr 1
    omega
  have hg2 : (frameBytes F ++ mic4).getD ((frameBytes F ++ mic4).length - 2) 0
      = mic4.getD 2 0 := by
    rw [List.getD_append_right _ _ _ _ (by omega)]
    congr 1
    omega
  have hg3 : (frameBytes F ++ mic4).getD ((frameBytes F ++ mic4).length - 1) 0
      = mic4.getD 3 0 := by
    rw [List.getD_append_right _ _ _ _ (by omega)]
    congr 1
    omega
  have htake : (frameBytes F ++ mic4).take ((frameBytes F ++ mic4).length - 4)
      = frameBytes F := by
    apply List.take_left'
    omega
  rw [hg0, hg1, hg2, hg3, htake]
  by_cases hmic : join4 (mic4.getD 0 0) (mic4.getD 1 0) (mic4.getD 2 0)
      (mic4.getD 3 0) = compute_mic (frameBytes F)
  swap
  · rw [if_pos hmic, if_neg hmic]
  rw [if_neg (not_not_intro hmic), if_pos hmic]
  have hcons : frameBytes F ++ mic4 =
      ((mt <<< 5) ||| (mj &&& 0x3)) :: (da &&& 0xFF) :: ((da >>> 8) &&& 0xFF) ::
        ((da >>> 16) &&& 0xFF) :: ((da >>> 24) &&& 0xFF) ::
        ((fc &&& 0xF0) ||| (fo.length &&& 0x0F)) :: (cn &&& 0xFF) ::
        ((cn >>> 8) &&& 0xFF) :: (fo ++ (pl ++ mic4)) := by
    simp [hF, frameBytes, le4, le2]
  have hfb : (fc &&& 0xF0) ||| (fo.length &&& 0x0F) = fc := by
    have h2 := fctrl_nibbles' fc hc
    rw [hnib] at h2
    exact h2
  have hb0 : (frameBytes F ++ mic4).getD 0 0 = (mt <<< 5) ||| (mj &&& 0x3) := by
    rw [hcons]
    rfl
  have hb1 : (frameBytes F ++ mic4).getD 1 0 = da &&& 0xFF := by
    rw [hcons]
    rfl
  have hb2 : (frameBytes F ++ mic4).getD 2 0 = (da >>> 8) &&& 0xFF := by
    rw [hcons]
    rfl
  have hb3 : (frameBytes F ++ mic4).getD 3 0 = (da >>> 16) &&& 0xFF := by
    rw [hcons]
    rfl
  have hb4 : (frameBytes F ++ mic4).getD 4 0 = (da >>> 24) &&& 0xFF := by
    rw [hcons]
    rfl
  have hb5 : (frameBytes F ++ mic4).getD 5 0 = fc := by
    rw [hcons]
    simp only [List.getD_cons_succ, List.getD_cons_zero]
    exact hfb
  have hb6 : (frameBytes F ++ mic4).getD 6 0 = cn &&& 0xFF := by
    rw [hcons]
    rfl
  have hb7 : (frameBytes F ++ mic4).getD 7 0 = (cn >>> 8) &&& 0xFF := by
    rw [hcons]
    rfl
  have hdrop8 : (frameBytes F ++ mic4).drop 8 = fo ++ (pl ++ mic4) := by
    rw [hcons]
    rfl
  rw [hb0, hb1, hb2, hb3, hb4, hb5, hb6, hb7]
  rw [and_15_eq_mod fc, hnib]
  rw [if_neg (show ¬ ((frameBytes F ++ mic4).length - 4 < 8 + fo.length)
    from by omega)]
  have hdrop8o : (frameBytes F ++ mic4).drop (8 + fo.length) = pl ++ mic4 := by
    have h1 : List.drop fo.length (List.drop 8 (frameBytes F ++ mic4))
        = pl ++ mic4 := by
      rw [hdrop8]
      exact List.drop_left _ _
    rw [List.drop_drop] at h1
    exact h1
  have hplen : (frameBytes F ++ mic4).length - 4 - (8 + fo.length)
      = pl.length := by
    omega
  rw [hdrop8, List.take_left, hdrop8o, hplen, List.take_left]
  rw [(mhdr_fields_roundtrip' mt mj hm hj).1,
      (mhdr_fields_roundtrip' mt mj hm hj).2]
  rw [join4_le4 da ha, join2_le2 cn hn]

/-- Claim C9: for every frame whose FCtrl low nibble equals the length of its
FOpts (fields within their C++ integer widths), parse_frame of build_frame
reconstructs the frame — MHDR, DevAddr, FCtrl, FCnt, FOpts and payload — with
the MIC computed as CRC-32, polynomial 0xEDB88320, reflected, initial
0xFFFFFFFF, final XOR 0xFFFFFFFF, over all preceding frame bytes; replacing
any one MIC byte by a different byte value makes parse_frame fail with the
MIC-mismatch error (-2), which is distinct from the shape-mismatch error
(-1). -/
theorem lorawan_frame_roundtrip_and_mic (f : Frame) (sf cap : Nat)
    (hm : f.mhdr.mtype < 8) (hj : f.mhdr.major < 4)
    (hc : f.fhdr.fctrl < 256) (hnib : f.fhdr.fctrl % 16 = f.fhdr.fopts.length)
    (ha : f.fhdr.devaddr < 2 ^ 32) (hn : f.fhdr.fcnt < 2 ^ 16)
    (hfo : ∀ b ∈ f.fhdr.fopts, b < 256) (hp : ∀ b ∈ f.payload, b < 256)
    (hcap : 2 * (build_frame_bytes f).length ≤ cap) :
    (build_frame f sf cap = .ok (lora_encode (build_frame_bytes f) sf) ∧
      parse_frame (lora_encode (build_frame_bytes f) sf) = .ok f) ∧
    (∀ i : Fin 4, ∀ v : Nat, v < 256 →
      v ≠ (le4 (compute_mic (frameBytes f))).getD i.val 0 →
      parse_frame (lora_encode (frameBytes f ++
        (le4 (compute_mic (frameBytes f))).set i.val v) sf) = .error (-2)) ∧
    ((-2 : Int) ≠ -1) := by
  have hmiclt : compute_mic (frameBytes f) < 2 ^ 32 :=
    compute_mic_lt _ (frameBytes_lt f hm hc hfo hp)
  refine ⟨⟨?_, ?_⟩, ?_, by norm_num⟩
  · rw [build_frame, encode]
    rw [if_neg (by rw [lora_encode_length]; omega)]
  · rw [build_frame_bytes]
    rw [parse_frame_encode_frame f sf _ hm hj hc hnib ha hn hfo hp
      (by rfl : (le4 (compute_mic (frameBytes f))).length = 4) (le4_lt _)]
    rw [if_pos]
    rw [show (le4 (compute_mic (frameBytes f))).getD 0 0 =
      compute_mic (frameBytes f) &&& 0xFF from rfl]
    rw [show (le4 (compute_mic (frameBytes f))).getD 1 0 =
      (compute_mic (frameBytes f) >>> 8) &&& 0xFF from rfl]
    rw [show (le4 (compute_mic (frameBytes f))).getD 2 0 =
      (compute_mic (frameBytes f) >>> 16) &&& 0xFF from rfl]
    rw [show (le4 (compute_mic (frameBytes f))).getD 3 0 =
      (compute_mic (frameBytes f) >>> 24) &&& 0xFF from rfl]
    exact join4_le4 _ hmiclt
  · intro i v hv hvne
    have hm4len : ((le4 (compute_mic (frameBytes f))).set i.val v).length = 4 := by
      rw [List.length_set]
      rfl
    have hm4 : ∀ b ∈ (le4 (compute_mic (frameBytes f))).set i.val v, b < 256 := by
      intro b hb
      rcases List.mem_or_eq_of_mem_set hb with h | h
      · exact le4_lt _ b h
      · omega
    rw [parse_frame_encode_frame f sf _ hm hj hc hnib ha hn hfo hp hm4len hm4]
    rw [if_neg]
    set M := compute_mic (frameBytes f) with hM
    have hd0 : M &&& 0xFF < 256 := by rw [and_255_eq_mod]; omega
    have hd1 : (M >>> 8) &&& 0xFF < 256 := by rw [and_255_eq_mod]; omega
    have hd2 : (M >>> 16) &&& 0xFF < 256 := by rw [and_255_eq_mod]; omega
    have hd3 : (M >>> 24) &&& 0xFF < 256 := by rw [and_255_eq_mod]; omega
    have hjoin : join4 (M &&& 0xFF) ((M >>> 8) &&& 0xFF) ((M >>> 16) &&& 0xFF)
        ((M >>> 24) &&& 0xFF) = M := join4_le4 _ hmiclt
    fin_cases i
    · intro hcon
      simp only [le4, List.set, List.getD_cons_zero, List.getD_cons_succ]
        at hvne hcon
      rw [join4_eq _ _ _ _ hv hd1 hd2] at hcon
      rw [join4_eq _ _ _ _ hd0 hd1 hd2] at hjoin
      omega
    · intro hcon
      simp only [le4, List.set, List.getD_cons_zero, List.getD_cons_succ]
        at hvne hcon
      rw [join4_eq _ _ _ _ hd0 hv hd2] at hcon
      rw [join4_eq _ _ _ _ hd0 hd1 hd2] at hjoin
      omega
    · intro hcon
      simp only [le4, List.set, List.getD_cons_zero, List.getD_cons_succ]
        at hvne hcon
      rw [join4_eq _ _ _ _ hd0 hd1 hv] at hcon
      rw [join4_eq _ _ _ _ hd0 hd1 hd2] at hjoin
      omega
    · intro hcon
      simp only [le4, List.set, List.getD_cons_zero, List.getD_cons_succ]
        at hvne hcon
      rw [join4_eq _ _ _ _ hd0 hd1 hd2] at hcon
      rw [join4_eq _ _ _ _ hd0 hd1 hd2] at hjoin
      omega

/-- Witness for C9: the roundtrip at a concrete UnconfirmedDataUp frame with
DevAddr 0x01020304, FCnt 1, no FOpts and an 8-byte payload. -/
theorem lorawan_frame_roundtrip_and_mic_witness :
    parse_frame (lora_encode (build_frame_bytes
      { mhdr := { mtype := 2, major := 0 },
        fhdr := { devaddr := 0x01020304, fctrl := 0, fcnt := 1, fopts := [] },
        payload := [1, 2, 3, 4, 5, 6, 7, 8] }) 7) =
      .ok { mhdr := { mtype := 2, major := 0 },
            fhdr := { devaddr := 0x01020304, fctrl := 0, fcnt := 1, fopts := [] },
            payload := [1, 2, 3, 4, 5, 6, 7, 8] } :=
  (lorawan_frame_roundtrip_and_mic
    { mhdr := { mtype := 2, major := 0 },
      fhdr := { devaddr := 0x01020304, fctrl := 0, fcnt := 1, fopts := [] },
      payload := [1, 2, 3, 4, 5, 6, 7, 8] } 7 40
    (by norm_num) (by norm_num) (by norm_num) (by decide)
    (by norm_num) (by norm_num) (by simp) (by decide)
    (by simp [build_frame_bytes, frameBytes_length, le4])).1.2

end LoRaPhy
